import Mathlib

/-!
Shallow embedding of the CTBN mean-field variational inference engine
(`src/python/ctbn.py`) and verification of its specification claims.

Conventions of the embedding:
* jnp arrays of shape (K,N), (K,M), ... become curried functions on `Fin` types;
  real scalars become `ℝ`.
* 0/1 flag arrays (`nbr_mask`, `seq_mask`) are modelled with `ℕ` values, cast to
  `ℝ` where the code uses them as multiplicative factors; where the code uses a
  0/1 flag as an exponent (`**`), we use `Monoid.npow`, which agrees with jnp
  semantics on 0/1 exponents (in particular `x ** 0 = 1` for every `x`).
* python lists of trajectory objects become `List` values; `jax.lax.scan`
  becomes `List.foldl`; `jax.lax.cond` becomes `if`.
* trajectory (`diffrax` solution) objects are abstracted as their `evaluate`
  method: functions `ℝ → Fin N → ℝ`.
-/

noncomputable section

open Real Finset

/-- The constant `jnp.finfo('float32').smallest_normal`, the clamp threshold used by
`safe_log` and `safe_recip`: the smallest normal float32, `2 ^ (-126)`. -/
def smallest_float32 : ℝ := 1 / 2 ^ 126

/-- The function `safe_log` from ctbn.py: log of the input clamped below at
`smallest_float32`. -/
def safe_log (x : ℝ) : ℝ := Real.log (max x smallest_float32)

/-- The function `safe_recip` from ctbn.py: reciprocal of the input clamped below at
`smallest_float32`. -/
def safe_recip (x : ℝ) : ℝ := 1 / max x smallest_float32

/-- The function `product` from ctbn.py: `exp(sum(safe_log x))` along an axis; here the
axis is a `Fin` index type. -/
def product {m : ℕ} (x : Fin m → ℝ) : ℝ := Real.exp (∑ k, safe_log (x k))

/-- The function `offdiag_mask` from ctbn.py: ones matrix minus the identity. -/
def offdiag_mask {N : ℕ} (x y : Fin N) : ℝ := if x = y then 0 else 1

/-- The function `symmetrise` from ctbn.py: `(matrix + matrixᵀ) / 2`. -/
def symmetrise {N : ℕ} (A : Fin N → Fin N → ℝ) : Fin N → Fin N → ℝ :=
  fun i j => (A i j + A j i) / 2

/-- The function `row_normalise` from ctbn.py: subtract `diag(row sums)`. -/
def row_normalise {N : ℕ} (A : Fin N → Fin N → ℝ) : Fin N → Fin N → ℝ :=
  fun i j => A i j - (if i = j then ∑ k, A i k else 0)

/-- The parameter dict `params = dict(S=..., J=..., h=...)` of ctbn.py. -/
@[ext]
structure CtbnParams (N : ℕ) where
  S : Fin N → Fin N → ℝ
  J : Fin N → Fin N → ℝ
  h : Fin N → ℝ

/-- The function `normalise_ctbn_params` from ctbn.py:
`S ↦ symmetrise(row_normalise(|S|))`, `J ↦ symmetrise(J)`, `h` unchanged. -/
def normalise_ctbn_params {N : ℕ} (params : CtbnParams N) : CtbnParams N :=
  { S := symmetrise (row_normalise (fun i j => |params.S i j|))
    J := symmetrise params.J
    h := params.h }

/-- The intermediate tensor `mu_exp_2JC` of `q_bar` in ctbn.py: entry (a,k,y)
is `(Σ_x mu[nbr_idx[idx[a],k],x] · exp(2·J[y,x])) ** nbr_mask[idx[a],k]`. -/
def mu_exp_2JC {A K M N : ℕ} (idx : Fin A → Fin K) (nbr_idx : Fin K → Fin M → Fin K)
    (nbr_mask : Fin K → Fin M → ℕ) (params : CtbnParams N) (mu : Fin K → Fin N → ℝ) :
    Fin A → Fin M → Fin N → ℝ :=
  fun a k y =>
    (∑ x, mu (nbr_idx (idx a) k) x * Real.exp (2 * params.J y x)) ^ nbr_mask (idx a) k

/-- The function `q_bar` from ctbn.py: mean-field averaged rates; entry (a,x,y) is
`S[x,y]·offdiag·exp(h[y])·product_k(mu_exp_2JC[a,k,y])` where `product` is the
safe-log product. -/
def q_bar {A K M N : ℕ} (idx : Fin A → Fin K) (nbr_idx : Fin K → Fin M → Fin K)
    (nbr_mask : Fin K → Fin M → ℕ) (params : CtbnParams N) (mu : Fin K → Fin N → ℝ) :
    Fin A → Fin N → Fin N → ℝ :=
  fun a x y =>
    params.S x y * offdiag_mask x y * Real.exp (params.h y) *
      product (fun k => mu_exp_2JC idx nbr_idx nbr_mask params mu a k y)

/-- The `nonself_nbr_mask` tensor of `q_bar_cond`/`q_tilde_cond`:
`offdiag_mask(M) * outer(nbr_mask[i], nbr_mask[i])`, as a 0/1 natural. -/
def nonself_nbr_mask {K M : ℕ} (nbr_mask : Fin K → Fin M → ℕ) (i : Fin K) :
    Fin M → Fin M → ℕ :=
  fun j k => (if j = k then 0 else 1) * (nbr_mask i j * nbr_mask i k)

/-- The numpy broadcast of `A ** b` for `A` of shape `(M,N)` and `b` of shape
`(M,)`, as jnp evaluates the expression `mu[nbr_idx[i]] ** nbr_mask[i,:]` of
`q_bar_cond` (ctbn.py line 106) followed by the contraction of the result as a
`(M,N)` operand of the next einsum: broadcasting right-aligns the single axis
of `b` with the STATE axis of `A` (not the neighbor-slot axis), so the
exponent is the state-indexed `b x` when `M = N`, the scalar `b 0` when
`M = 1`, and any other shape fails (`none`: either the power itself cannot
broadcast, or it yields shape `(M,M)` which the einsum then rejects). -/
def pow_bcast {M N : ℕ} (A : Fin M → Fin N → ℝ) (b : Fin M → ℕ) :
    Option (Fin M → Fin N → ℝ) :=
  if h : M = N then some (fun k x => A k x ^ b (Fin.cast h.symm x))
  else if h1 : M = 1 then some (fun k x => A k x ^ b (Fin.cast h1.symm 0))
  else none

/-- The function `q_bar_cond` from ctbn.py: entry (j, x_j, x_i, y_i) is the mean-field
averaged rate x_i→y_i conditioned on neighbor slot j being in state x_j.  The
`mu_nbr` factor is the broadcast power `mu[nbr_idx[i]] ** nbr_mask[i,:]`,
whose mask exponent jnp aligns with the state axis (`pow_bcast`); the whole
tensor is `none` on the shapes where that expression raises. -/
def q_bar_cond {K M N : ℕ} (i : Fin K) (nbr_idx : Fin K → Fin M → Fin K)
    (nbr_mask : Fin K → Fin M → ℕ) (params : CtbnParams N) (mu : Fin K → Fin N → ℝ) :
    Option (Fin M → Fin N → Fin N → Fin N → ℝ) :=
  (pow_bcast (fun k x => mu (nbr_idx i k) x) (nbr_mask i)).map (fun mu_nbr =>
    fun j xj xi yi =>
      params.S xi yi * offdiag_mask xi yi * Real.exp (params.h yi) *
        Real.exp (-2 * ((nbr_mask i j : ℝ) * params.J xj yi)) *
        product (fun k =>
          ∑ x, mu_nbr k x *
            Real.exp (2 * params.J yi x) ^ nonself_nbr_mask nbr_mask i j k))

/-- The function `q_tilde` from ctbn.py: geometrically-averaged mean-field rates; entry
(a,x,y) is `S[x,y]·offdiag·exp(h[y] + 2·mean_energy[a,y])`. -/
def q_tilde {A K M N : ℕ} (idx : Fin A → Fin K) (nbr_idx : Fin K → Fin M → Fin K)
    (nbr_mask : Fin K → Fin M → ℕ) (params : CtbnParams N) (mu : Fin K → Fin N → ℝ) :
    Fin A → Fin N → Fin N → ℝ :=
  fun a x y =>
    params.S x y * offdiag_mask x y *
      Real.exp (params.h y +
        2 * ∑ k, ∑ x', mu (nbr_idx (idx a) k) x' * (nbr_mask (idx a) k : ℝ) * params.J y x')

/-- The function `q_tilde_cond` from ctbn.py: entry (j, x_j, x_i, y_i) is the geometrically
averaged rate x_i→y_i conditioned on neighbor slot j being in state x_j. -/
def q_tilde_cond {K M N : ℕ} (i : Fin K) (nbr_idx : Fin K → Fin M → Fin K)
    (nbr_mask : Fin K → Fin M → ℕ) (params : CtbnParams N) (mu : Fin K → Fin N → ℝ) :
    Fin M → Fin N → Fin N → Fin N → ℝ :=
  fun j xj xi yi =>
    params.S xi yi * offdiag_mask xi yi * Real.exp (params.h yi) *
      Real.exp (2 * ((nbr_mask i j : ℝ) * params.J xj yi)) *
      Real.exp (2 * ∑ k, ∑ x,
        mu (nbr_idx i k) x * (nonself_nbr_mask nbr_mask i j k : ℝ) * params.J yi x)

/-- The function `gamma` from ctbn.py: entry (a,x,y) is
`mu[idx[a],x] · q_tilde[a,x,y] · rho[idx[a],y] · safe_recip(rho[idx[a],x])`. -/
def gamma {A K M N : ℕ} (idx : Fin A → Fin K) (nbr_idx : Fin K → Fin M → Fin K)
    (nbr_mask : Fin K → Fin M → ℕ) (params : CtbnParams N)
    (mu rho : Fin K → Fin N → ℝ) : Fin A → Fin N → Fin N → ℝ :=
  fun a x y =>
    mu (idx a) x * q_tilde idx nbr_idx nbr_mask params mu a x y * rho (idx a) y *
      safe_recip (rho (idx a) x)

/-- The function `psi` from ctbn.py: the (N,) vector combining conditioned mean and
geometric rates with neighbor gammas; `none` when `q_bar_cond` fails. -/
def psi {K M N : ℕ} (i : Fin K) (nbr_idx : Fin K → Fin M → Fin K)
    (nbr_mask : Fin K → Fin M → ℕ) (params : CtbnParams N)
    (mu rho : Fin K → Fin N → ℝ) : Option (Fin N → ℝ) :=
  (q_bar_cond i nbr_idx nbr_mask params mu).map (fun qbc => fun x =>
    -(∑ j, ∑ y, ∑ z, mu (nbr_idx i j) y * qbc j x y z * (nbr_mask i j : ℝ)) +
    ∑ j, ∑ y, ∑ z, gamma (nbr_idx i) nbr_idx nbr_mask params mu rho j y z *
      safe_log (if q_tilde_cond i nbr_idx nbr_mask params mu j x y z < 0 then 1
                else q_tilde_cond i nbr_idx nbr_mask params mu j x y z) *
      (nbr_mask i j : ℝ))

/-- The function `rho_deriv` from ctbn.py: right-hand side of the backward ρ ODE for
component `i`; `none` when `psi` fails. -/
def rho_deriv {K M N : ℕ} (i : Fin K) (nbr_idx : Fin K → Fin M → Fin K)
    (nbr_mask : Fin K → Fin M → ℕ) (params : CtbnParams N)
    (mu rho : Fin K → Fin N → ℝ) : Option (Fin N → ℝ) :=
  (psi i nbr_idx nbr_mask params mu rho).map (fun p => fun x =>
    -rho i x *
        ((-∑ y, q_bar (fun _ : Fin 1 => i) nbr_idx nbr_mask params mu 0 x y) +
          p x) -
      ∑ y, rho i y * q_tilde (fun _ : Fin 1 => i) nbr_idx nbr_mask params mu 0 x y)

/-- The function `mu_deriv` from ctbn.py: right-hand side of the forward μ ODE for
component `i` (gamma inflow minus outflow). -/
def mu_deriv {K M N : ℕ} (i : Fin K) (nbr_idx : Fin K → Fin M → Fin K)
    (nbr_mask : Fin K → Fin M → ℕ) (params : CtbnParams N)
    (mu rho : Fin K → Fin N → ℝ) : Fin N → ℝ :=
  fun x =>
    (∑ y, gamma (fun _ : Fin 1 => i) nbr_idx nbr_mask params mu rho 0 y x) -
      ∑ y, gamma (fun _ : Fin 1 => i) nbr_idx nbr_mask params mu rho 0 x y

/-- The `mask` tensor of `F_deriv`: `seq_mask[:,None,None] * offdiag_mask(N)`. -/
def F_mask {K N : ℕ} (seq_mask : Fin K → ℕ) (i : Fin K) (x y : Fin N) : ℝ :=
  (seq_mask i : ℝ) * offdiag_mask x y

/-- The `gamma_coeff` tensor of `F_deriv`:
`log_qtilde + 1 + safe_log(mu)[:,:,None] - safe_log(gamma)`. -/
def gamma_coeff {K M N : ℕ} (seq_mask : Fin K → ℕ) (nbr_idx : Fin K → Fin M → Fin K)
    (nbr_mask : Fin K → Fin M → ℕ) (params : CtbnParams N)
    (mu rho : Fin K → Fin N → ℝ) (i : Fin K) (x y : Fin N) : ℝ :=
  safe_log (if F_mask seq_mask i x y = 0 then 1
            else q_tilde id nbr_idx nbr_mask params mu i x y) +
    1 + safe_log (mu i x) -
    safe_log (gamma id nbr_idx nbr_mask params mu rho i x y)

/-- The function `F_deriv` from ctbn.py: right-hand side of the scalar variational-bound
ODE, masked to real components and off-diagonal transitions. -/
def F_deriv {K M N : ℕ} (seq_mask : Fin K → ℕ) (nbr_idx : Fin K → Fin M → Fin K)
    (nbr_mask : Fin K → Fin M → ℕ) (params : CtbnParams N)
    (mu rho : Fin K → Fin N → ℝ) : ℝ :=
  -(∑ i, ∑ x, ∑ y, mu i x * q_bar id nbr_idx nbr_mask params mu i x y *
      F_mask seq_mask i x y) +
    ∑ i, ∑ x, ∑ y, gamma id nbr_idx nbr_mask params mu rho i x y *
      gamma_coeff seq_mask nbr_idx nbr_mask params mu rho i x y *
      F_mask seq_mask i x y

/-- The function `eval_mu_rho` from ctbn.py: stack the per-component trajectory objects
(abstracted as their `evaluate` functions) into (K,N) matrices at time `t`. -/
def eval_mu_rho {K N : ℕ} (mu_solns rho_solns : Fin K → ℝ → Fin N → ℝ) (t : ℝ) :
    (Fin K → Fin N → ℝ) × (Fin K → Fin N → ℝ) :=
  (fun i => mu_solns i t, fun i => rho_solns i t)

/-- The function `F_term` from ctbn.py: the diffrax wrapper for `F_deriv`; `mu` is replaced
by `rho` whenever `t < T` fails (guard against explosion at the boundary). -/
def F_term {K M N : ℕ} (t : ℝ) (_F_t : ℝ) (seq_mask : Fin K → ℕ)
    (nbr_idx : Fin K → Fin M → Fin K) (nbr_mask : Fin K → Fin M → ℕ)
    (params : CtbnParams N) (mu_solns rho_solns : Fin K → ℝ → Fin N → ℝ)
    (T : ℝ) : ℝ :=
  let mr := eval_mu_rho mu_solns rho_solns t
  let mu := if t < T then mr.1 else mr.2
  F_deriv seq_mask nbr_idx nbr_mask params mu mr.2

/-- The function `rho_term` from ctbn.py: the diffrax wrapper for `rho_deriv`; `mu` is
replaced by `rho` whenever `t < T` fails, then row `i` of `rho` is set to the
current dependent variable, and the derivative is masked by `seq_mask[i]`
(`none` propagates the shape error of `rho_deriv`). -/
def rho_term {K M N : ℕ} (t : ℝ) (rho_i_t : Fin N → ℝ) (i : Fin K)
    (seq_mask : Fin K → ℕ) (nbr_idx : Fin K → Fin M → Fin K)
    (nbr_mask : Fin K → Fin M → ℕ) (params : CtbnParams N)
    (mu_solns rho_solns : Fin K → ℝ → Fin N → ℝ) (T : ℝ) : Option (Fin N → ℝ) :=
  let mr := eval_mu_rho mu_solns rho_solns t
  let mu := if t < T then mr.1 else mr.2
  let rho := Function.update mr.2 i rho_i_t
  (rho_deriv i nbr_idx nbr_mask params mu rho).map (fun d =>
    fun x => (seq_mask i : ℝ) * d x)

/-- The function `mu_term` from ctbn.py: the diffrax wrapper for `mu_deriv`; row `i` of
`mu` is set to the current dependent variable, then `mu` is replaced by `rho`
whenever `t < T` fails, and the derivative is masked by `seq_mask[i]`. -/
def mu_term {K M N : ℕ} (t : ℝ) (mu_i_t : Fin N → ℝ) (i : Fin K)
    (seq_mask : Fin K → ℕ) (nbr_idx : Fin K → Fin M → Fin K)
    (nbr_mask : Fin K → Fin M → ℕ) (params : CtbnParams N)
    (mu_solns rho_solns : Fin K → ℝ → Fin N → ℝ) (T : ℝ) : Fin N → ℝ :=
  let mr := eval_mu_rho mu_solns rho_solns t
  let mu₁ := Function.update mr.1 i mu_i_t
  let mu := if t < T then mu₁ else mr.2
  fun x => (seq_mask i : ℝ) * mu_deriv i nbr_idx nbr_mask params mu mr.2 x

/-- The function `scipy.linalg.expm`: the matrix exponential. -/
def expm {N : ℕ} (A : Matrix (Fin N) (Fin N) ℝ) : Matrix (Fin N) (Fin N) ℝ :=
  NormedSpace.exp ℝ A

/-- The constructor arguments of `ExactRho`/`ExactMu` in ctbn.py: a rate
matrix `q`, horizon `T` and endpoint states `x`, `y`. -/
structure ExactRhoData (N : ℕ) where
  q : Fin N → Fin N → ℝ
  T : ℝ
  x : Fin N
  y : Fin N

/-- The field `self.q = row_normalise(q)` set by `ExactRho.__init__`. -/
def ExactRho_normq {N : ℕ} (d : ExactRhoData N) : Matrix (Fin N) (Fin N) ℝ :=
  Matrix.of (row_normalise d.q)

/-- The field `self.exp_qT = expm(q*T)[x,y]` set by `ExactRho.__init__`
(note: the raw constructor argument `q`, not `self.q`). -/
def ExactRho_exp_qT {N : ℕ} (d : ExactRhoData N) : ℝ :=
  expm (Matrix.of fun i j => d.q i j * d.T) d.x d.y

/-- The method `ExactRho.evaluate` from ctbn.py:
`minimum(expm(self.q*(T-t))[:,y], 1)`. -/
def ExactRho_evaluate {N : ℕ} (d : ExactRhoData N) (t : ℝ) : Fin N → ℝ :=
  fun s => min (expm (Matrix.of fun i j => ExactRho_normq d i j * (d.T - t)) s d.y) 1

/-- The method `ExactMu.evaluate` from ctbn.py:
`mu = expm(self.q*t)[x,:] * rho(t) / self.exp_qT`, returned as `mu / sum(mu)`. -/
def ExactMu_evaluate {N : ℕ} (d : ExactRhoData N) (t : ℝ) : Fin N → ℝ :=
  let rho := ExactRho_evaluate d t
  let mu := fun s =>
    expm (Matrix.of fun i j => ExactRho_normq d i j * t) d.x s * rho s / ExactRho_exp_qT d
  fun s => mu s / ∑ s', mu s'

/-- The function `replace_nth` from ctbn.py: an enumerate-and-cond list comprehension that
replaces the `n`-th entry of a list. -/
def replace_nth {α : Type*} (old_arr : List α) (n : ℕ) (new_nth_elt : α) : List α :=
  old_arr.enum.map (fun kx => if kx.1 = n then new_nth_elt else kx.2)

/-- The function `loop_body_fun` inside `ctbn_variational_log_cond`: re-solve ρ for
component `i` against the current arrays, replace entry `i`, then re-solve μ
against the updated arrays and replace entry `i`.  The diffrax solves
`solve_rho`/`solve_mu` are abstracted as functions `solveRho`/`solveMu` of the
component index and the current solution arrays (all their other arguments are
fixed throughout the loop). -/
def loop_body_fun {Traj : Type*} (solveRho solveMu : ℕ → List Traj → List Traj → Traj)
    (inner_state : List Traj × List Traj) (i : ℕ) : List Traj × List Traj :=
  let new_rho_i := solveRho i inner_state.1 inner_state.2
  let rho_solns := replace_nth inner_state.2 i new_rho_i
  let new_mu_i := solveMu i inner_state.1 rho_solns
  let mu_solns := replace_nth inner_state.1 i new_mu_i
  (mu_solns, rho_solns)

/-- The function `update_fun` inside `ctbn_variational_log_cond`: one coordinate-ascent
sweep.  `perm` is the value of `jax.random.permutation(prng, K)`; since the
PRNG key `prng` is captured by the closure and never split or advanced, the
same `perm` is drawn in every sweep.  The permutation is reversed when its
first element equals the last index updated in the previous sweep, then the
sweep body is scanned over the resulting order, and the order's last element
becomes the new last-updated index. -/
def update_fun {Traj : Type*} (perm : List ℕ)
    (solveRho solveMu : ℕ → List Traj → List Traj → Traj)
    (outer_state : (List Traj × List Traj) × ℤ) : (List Traj × List Traj) × ℤ :=
  let order := if outer_state.2 = (perm.headI : ℤ) then perm.reverse else perm
  (order.foldl (loop_body_fun solveRho solveMu) outer_state.1, (order.getLastI : ℤ))

/-- The function `score_fun` inside `ctbn_variational_log_cond`: the variational bound of
the current solution arrays; the F-integration `solve_F` is abstracted as a
function `solveF` of the two arrays. -/
def score_fun {Traj : Type*} (solveF : List Traj → List Traj → ℝ)
    (outer_state : (List Traj × List Traj) × ℤ) : ℝ :=
  solveF outer_state.1.1 outer_state.1.2

/-- Modelled from the spec: the loop engine `bounded_optimize` is imported
from the module `bounded_while_loop`, which is not part of this repository
snapshot.  Following §4.3 of the spec, it repeatedly applies `update` and
re-scores, stopping when the relative increase `(F_curr - F_prev)/F_prev` of
the bound drops to `min_inc` or below, or when the update budget is exhausted,
whichever happens first.  This recursion also returns the number of updates
performed (dropped by `bounded_optimize` itself). -/
def boundedOptimizeGo {σ : Type*} (score : σ → ℝ) (upd : σ → σ) (min_inc : ℝ) :
    ℕ → σ → ℝ → ℝ × σ × ℕ
  | 0, s, F_prev => (F_prev, s, 0)
  | n + 1, s, F_prev =>
    let s' := upd s
    let F_curr := score s'
    if (F_curr - F_prev) / F_prev ≤ min_inc then (F_curr, s', 1)
    else
      let r := boundedOptimizeGo score upd min_inc n s' F_curr
      (r.1, r.2.1, r.2.2 + 1)

/-- Modelled from the spec: `bounded_optimize(score_fun, update_fun, init,
max_updates, min_inc)` returns the last computed bound and the final state. -/
def bounded_optimize {σ : Type*} (score : σ → ℝ) (upd : σ → σ) (init : σ)
    (max_updates : ℕ) (min_inc : ℝ) : ℝ × σ :=
  let r := boundedOptimizeGo score upd min_inc max_updates init (score init)
  (r.1, r.2.1)

/-- The function `ctbn_variational_log_cond` from ctbn.py, its coordinate-ascent core: the
external solvers (diffrax) and the drawn permutation (jax PRNG) are abstracted
as parameters, and `mu_solns`/`rho_solns` are the solution arrays produced by
the warm-up pass of lines 331-339.  The loop state is
`((mu_solns, rho_solns), lastUpdatedIndex)` with initial last index `-1`; the
call returns the last computed bound together with the final solution arrays,
dropping the final last-updated index. -/
def ctbn_variational_log_cond {Traj : Type*} (perm : List ℕ)
    (solveF : List Traj → List Traj → ℝ)
    (solveRho solveMu : ℕ → List Traj → List Traj → Traj)
    (mu_solns rho_solns : List Traj) (min_inc : ℝ) (max_updates : ℕ) :
    ℝ × (List Traj × List Traj) :=
  let r := bounded_optimize (score_fun solveF) (update_fun perm solveRho solveMu)
    ((mu_solns, rho_solns), -1) max_updates min_inc
  (r.1, r.2.1)

/-- The spec's description of one coordinate-ascent sweep (§4.3): for each
index `i` of the order, strictly in sequence, entry `i` of the ρ array is
replaced by the re-solved ρ_i (computed from the current arrays), then entry
`i` of the μ array is replaced by the re-solved μ_i (computed from the arrays
that already contain the fresh ρ_i), so later indices see the replacements. -/
def sweepSpec {Traj : Type*} (solveRho solveMu : ℕ → List Traj → List Traj → Traj) :
    List ℕ → List Traj × List Traj → List Traj × List Traj
  | [], st => st
  | i :: rest, st =>
    let rho' := st.2.set i (solveRho i st.1 st.2)
    let mu' := st.1.set i (solveMu i st.1 rho')
    sweepSpec solveRho solveMu rest (mu', rho')

/-- The effective visiting order of sweep `n` (0-indexed) of the
coordinate-ascent loop: the fixed drawn permutation, reversed when its head
equals the last index updated by the previous sweeps. -/
def sweep_order {Traj : Type*} (perm : List ℕ)
    (solveRho solveMu : ℕ → List Traj → List Traj → Traj)
    (init : (List Traj × List Traj) × ℤ) (n : ℕ) : List ℕ :=
  if ((update_fun perm solveRho solveMu)^[n] init).2 = (perm.headI : ℤ) then
    perm.reverse
  else perm

/-- A concrete ρ-solver on natural-number "trajectories" for witnesses. -/
def solveRhoEx : ℕ → List ℕ → List ℕ → ℕ := fun i _ _ => i + 10

/-- A concrete μ-solver on natural-number "trajectories" for witnesses. -/
def solveMuEx : ℕ → List ℕ → List ℕ → ℕ := fun i _ _ => i + 20

/-- A concrete F-scorer on natural-number "trajectories" for witnesses. -/
def solveFEx : List ℕ → List ℕ → ℝ := fun _ _ => 1

/-- The function `round_up_to_power` from ctbn.py, base-2 branch:
`1 << (x-1).bit_length()` (`Nat.size` is python's `bit_length`). -/
def round_up_to_power (x : ℕ) : ℕ := 2 ^ Nat.size (x - 1)

/-- The list `nbr_idx_list` of `get_Markov_blankets`: for each row `i` of the
contact matrix (dimensions `r × c`, entries `C i j`), the indices of its
nonzero entries. -/
def nbr_idx_list (r c : ℕ) (C : ℕ → ℕ → ℕ) : List (List ℕ) :=
  (List.range r).map (fun i => (List.range c).filter (fun j => C i j ≠ 0))

/-- The maximum neighbor count `max([len(nbr_idx) for nbr_idx in
nbr_idx_list])` of `get_Markov_blankets` (0 when there are no rows). -/
def max_nbrs (r c : ℕ) (C : ℕ → ℕ → ℕ) : ℕ :=
  ((nbr_idx_list r c C).map List.length).foldr max 0

/-- Test used to model the python `assert len(xs) == K_prepad` guards: true
when the optional list is supplied with the wrong length. -/
def optLenBad (o : Option (List ℕ)) (n : ℕ) : Bool :=
  match o with
  | none => false
  | some l => l.length != n

/-- The function `get_Markov_blankets` from ctbn.py over a contact matrix of shape
`(r, c)` with entries `C i j`: the python assertions become `Except.error`
results (raised in source order, before the padded tuple is built); on valid
input it returns `(seq_mask, nbr_idx, nbr_mask, xs, ys)` padded to `K`
components and `M` neighbor slots. -/
def get_Markov_blankets (r c : ℕ) (C : ℕ → ℕ → ℕ) (xs ys : Option (List ℕ))
    (Kopt Mopt : Option ℕ) :
    Except String
      (List ℕ × List (List ℕ) × List (List ℕ) × Option (List ℕ) × Option (List ℕ)) :=
  if c ≠ r then .error "C must be a square matrix"
  else if optLenBad xs r then .error "length of xs must equal size of C"
  else if optLenBad ys r then .error "length of ys must equal size of C"
  else
    let K := Kopt.getD (round_up_to_power r)
    let nbrs := nbr_idx_list r c C
    let build : ℕ → List ℕ × List (List ℕ) × List (List ℕ) × Option (List ℕ) × Option (List ℕ) :=
      fun M =>
        ((List.range K).map (fun i => if i < r then 1 else 0),
         nbrs.map (fun l => l ++ List.replicate (M - l.length) 0),
         nbrs.map (fun l => List.replicate l.length 1 ++ List.replicate (M - l.length) 0) ++
           List.replicate (K - r) (List.replicate M 0),
         xs.map (fun l => l ++ List.replicate (K - r) 0),
         ys.map (fun l => l ++ List.replicate (K - r) 0))
    match Mopt with
    | none => .ok (build (round_up_to_power (max_nbrs r c C)))
    | some M =>
      if M < max_nbrs r c C then
        .error "M must be at least as large as the largest number of neighbors"
      else .ok (build M)

/-- The per-component contribution to `F_deriv`, with the component mask
stripped off (only the off-diagonal mask kept): used to state that padded
components contribute exactly zero to the bound derivative. -/
def F_deriv_contrib {K M N : ℕ} (nbr_idx : Fin K → Fin M → Fin K)
    (nbr_mask : Fin K → Fin M → ℕ) (params : CtbnParams N)
    (mu rho : Fin K → Fin N → ℝ) (i : Fin K) : ℝ :=
  -(∑ x, ∑ y, mu i x * q_bar id nbr_idx nbr_mask params mu i x y *
      offdiag_mask x y) +
    ∑ x, ∑ y, gamma id nbr_idx nbr_mask params mu rho i x y *
      (safe_log (if offdiag_mask x y = 0 then 1
          else q_tilde id nbr_idx nbr_mask params mu i x y) +
        1 + safe_log (mu i x) -
        safe_log (gamma id nbr_idx nbr_mask params mu rho i x y)) *
      offdiag_mask x y

/-! ### Concrete inputs used by witnesses and counterexamples -/

/-- A concrete parameter set with constant (hence absolutely symmetric) `S`,
used as a witness input. -/
def params_const : CtbnParams 2 := ⟨fun _ _ => 1, fun _ _ => 0, fun _ => 0⟩

/-- The asymmetric raw parameter set used to refute the unconditional forms of
C4 and C5: `S = [[0,1],[0,0]]`, `J = 0`, `h = 0`. -/
def params_asym : CtbnParams 2 :=
  ⟨fun i j => if i = 0 ∧ j = 1 then 1 else 0, fun _ _ => 0, fun _ => 0⟩

/-- The parameter set of the C2 counterexample: `S` the 2-state flip matrix,
`h = 0`, `J ≡ -50`. -/
def params_J50 : CtbnParams 2 :=
  ⟨fun i j => if i = j then 0 else 1, fun _ _ => -50, fun _ => 0⟩

/-- Concrete one-component index vector: the single component, which is its
own single neighbor slot. -/
def idx1 : Fin 1 → Fin 1 := fun _ => 0

/-- Concrete neighbor index array for the one-component instance. -/
def nbr_idx1 : Fin 1 → Fin 1 → Fin 1 := fun _ _ => 0

/-- Concrete all-masked-out neighbor flag array. -/
def mask0 : Fin 1 → Fin 1 → ℕ := fun _ _ => 0

/-- Concrete all-masked-in neighbor flag array. -/
def mask1 : Fin 1 → Fin 1 → ℕ := fun _ _ => 1

/-- Concrete all-ones marginal matrix. -/
def mu_one : Fin 1 → Fin 2 → ℝ := fun _ _ => 1

/-- Concrete marginal matrix concentrated on state 0. -/
def mu_point : Fin 1 → Fin 2 → ℝ := fun _ x => if x = 0 then 1 else 0

/-- Concrete two-component sequence mask: component 0 real, component 1
padding. -/
def seq_mask10 : Fin 2 → ℕ := fun i => if i = 0 then 1 else 0

/-- Concrete two-component neighbor index array with one slot. -/
def nbr_idx2 : Fin 2 → Fin 1 → Fin 2 := fun _ _ => 0

/-- Concrete two-component all-masked-out neighbor flag array. -/
def mask2_0 : Fin 2 → Fin 1 → ℕ := fun _ _ => 0

/-- Concrete marginal matrices agreeing on the real component 0 but differing
on the padded component 1. -/
def muA : Fin 2 → Fin 2 → ℝ := fun i _ => if i = 0 then 1 else 5

/-- Variant of `muA` with a different padded row. -/
def muB : Fin 2 → Fin 2 → ℝ := fun i _ => if i = 0 then 1 else 7

/-- Concrete backward potentials agreeing on the real component 0 but
differing on the padded component 1. -/
def rhoA : Fin 2 → Fin 2 → ℝ := fun i _ => if i = 0 then 2 else 5

/-- Variant of `rhoA` with a different padded row. -/
def rhoB : Fin 2 → Fin 2 → ℝ := fun i _ => if i = 0 then 2 else 9

/-- Concrete constant-one trajectory array for one component. -/
def traj_one : Fin 1 → ℝ → Fin 2 → ℝ := fun _ _ _ => 1

/-- Concrete constant-two trajectory array for one component. -/
def traj_two : Fin 1 → ℝ → Fin 2 → ℝ := fun _ _ _ => 2

/-- Concrete all-real sequence mask for one component. -/
def seq_mask1 : Fin 1 → ℕ := fun _ => 1

/-- Concrete all-ones state vector. -/
def vec_one : Fin 2 → ℝ := fun _ => 1

/-- Concrete 2-state generator `[[-1,1],[1,-1]]` (zero row sums). -/
def q_flip : Fin 2 → Fin 2 → ℝ := fun i j => if i = j then -1 else 1

/-- Concrete `ExactRho`/`ExactMu` constructor data: generator `q_flip`,
horizon 1, endpoints 0 and 1. -/
def dex : ExactRhoData 2 := ⟨q_flip, 1, 0, 1⟩

/-! ### Helper lemmas on symmetrisation and row normalisation -/

theorem sum_row_normalise {N : ℕ} (A : Fin N → Fin N → ℝ) (i : Fin N) :
    ∑ j, row_normalise A i j = 0 := by
  simp only [row_normalise]
  rw [Finset.sum_sub_distrib]
  simp [Finset.sum_ite_eq]

theorem sum_col_row_normalise {N : ℕ} (A : Fin N → Fin N → ℝ) (i : Fin N) :
    ∑ j, row_normalise A j i = (∑ j, A j i) - ∑ k, A i k := by
  simp only [row_normalise]
  rw [Finset.sum_sub_distrib]
  simp [Finset.sum_ite_eq']

theorem symmetrise_symm {N : ℕ} (A : Fin N → Fin N → ℝ) (i j : Fin N) :
    symmetrise A i j = symmetrise A j i := by
  simp only [symmetrise]
  ring

theorem symmetrise_of_symm {N : ℕ} (A : Fin N → Fin N → ℝ)
    (h : ∀ i j, A i j = A j i) : symmetrise A = A := by
  funext i j
  simp only [symmetrise, h i j]
  ring

theorem normalised_S_row_sum {N : ℕ} (p : CtbnParams N)
    (habs : ∀ i j, |p.S i j| = |p.S j i|) (i : Fin N) :
    ∑ j, (normalise_ctbn_params p).S i j = 0 := by
  simp only [normalise_ctbn_params, symmetrise]
  rw [← Finset.sum_div, Finset.sum_add_distrib, sum_row_normalise,
    sum_col_row_normalise]
  have hcol : (∑ j, |p.S j i|) = ∑ j, |p.S i j| :=
    Finset.sum_congr rfl (fun j _ => (habs i j).symm)
  rw [hcol]
  ring

theorem normalised_S_offdiag_nonneg {N : ℕ} (p : CtbnParams N) {i j : Fin N}
    (hij : i ≠ j) : 0 ≤ (normalise_ctbn_params p).S i j := by
  simp only [normalise_ctbn_params, symmetrise, row_normalise, if_neg hij,
    if_neg (Ne.symm hij), sub_zero]
  positivity

/-- C4 (amended): for every parameter dict whose `S` has symmetric entrywise
absolute value (in particular for the symmetric `S` the model documents), the
normalised `S` is nonnegative off the diagonal, symmetric, and has zero row
sums; the normalised `J` is symmetric and `h` is returned unchanged. -/
theorem normalise_ctbn_params_valid {N : ℕ} (p : CtbnParams N)
    (habs : ∀ i j, |p.S i j| = |p.S j i|) :
    (∀ i j, i ≠ j → 0 ≤ (normalise_ctbn_params p).S i j) ∧
    (∀ i j, (normalise_ctbn_params p).S i j = (normalise_ctbn_params p).S j i) ∧
    (∀ i, ∑ j, (normalise_ctbn_params p).S i j = 0) ∧
    (∀ i j, (normalise_ctbn_params p).J i j = (normalise_ctbn_params p).J j i) ∧
    (normalise_ctbn_params p).h = p.h := by
  refine ⟨fun i j hij => normalised_S_offdiag_nonneg p hij,
    fun i j => symmetrise_symm _ i j,
    normalised_S_row_sum p habs,
    fun i j => symmetrise_symm _ i j, rfl⟩

/-- Witness for C4 at `params_const`. -/
theorem normalise_ctbn_params_valid_witness :
    (∀ i j, |params_const.S i j| = |params_const.S j i|) ∧
    ((∀ i j, i ≠ j → 0 ≤ (normalise_ctbn_params params_const).S i j) ∧
      (∀ i j, (normalise_ctbn_params params_const).S i j =
        (normalise_ctbn_params params_const).S j i) ∧
      (∀ i, ∑ j, (normalise_ctbn_params params_const).S i j = 0) ∧
      (∀ i j, (normalise_ctbn_params params_const).J i j =
        (normalise_ctbn_params params_const).J j i) ∧
      (normalise_ctbn_params params_const).h = params_const.h) :=
  ⟨fun _ _ => rfl, normalise_ctbn_params_valid _ (fun _ _ => rfl)⟩

/-- Counterexample to C4 as stated: for the (non-symmetric) raw
`S = [[0,1],[0,0]]`, row 0 of the normalised `S` sums to `-1/2`, not `0`. -/
theorem normalise_row_sum_counterexample :
    ¬ (∀ i, ∑ j, (normalise_ctbn_params params_asym).S i j = 0) := by
  intro hrow
  have h0 := hrow 0
  simp only [normalise_ctbn_params, symmetrise, row_normalise, params_asym,
    Fin.sum_univ_two] at h0
  norm_num at h0

/-- C5 (amended): `normalise_ctbn_params` is idempotent on every parameter
dict whose `S` has symmetric entrywise absolute value (in particular for the
symmetric `S` the model documents). -/
theorem normalise_ctbn_params_idem {N : ℕ} (p : CtbnParams N)
    (habs : ∀ i j, |p.S i j| = |p.S j i|) :
    normalise_ctbn_params (normalise_ctbn_params p) = normalise_ctbn_params p := by
  set q := normalise_ctbn_params p with hq
  have hsym : ∀ i j, q.S i j = q.S j i := fun i j => symmetrise_symm _ i j
  have hrow : ∀ i, ∑ j, q.S i j = 0 := normalised_S_row_sum p habs
  have hoff : ∀ i j, i ≠ j → 0 ≤ q.S i j := fun i j h =>
    normalised_S_offdiag_nonneg p h
  have herase : ∀ i, ∑ k ∈ Finset.univ.erase i, |q.S i k| =
      ∑ k ∈ Finset.univ.erase i, q.S i k := fun i =>
    Finset.sum_congr rfl (fun k hk =>
      abs_of_nonneg (hoff i k (Ne.symm (Finset.ne_of_mem_erase hk))))
  have hdiag : ∀ i, q.S i i + ∑ j ∈ Finset.univ.erase i, q.S i j = 0 := by
    intro i
    rw [Finset.add_sum_erase Finset.univ (q.S i) (Finset.mem_univ i)]
    exact hrow i
  have hdiag_nonpos : ∀ i, q.S i i ≤ 0 := by
    intro i
    have hnn : 0 ≤ ∑ j ∈ Finset.univ.erase i, q.S i j :=
      Finset.sum_nonneg (fun j hj => hoff i j (Ne.symm (Finset.ne_of_mem_erase hj)))
    linarith [hdiag i]
  have hB : row_normalise (fun a b => |q.S a b|) = q.S := by
    funext i j
    by_cases hij : i = j
    · subst hij
      have hsum : ∑ k, |q.S i k| = |q.S i i| + ∑ k ∈ Finset.univ.erase i, |q.S i k| :=
        (Finset.add_sum_erase Finset.univ (fun k => |q.S i k|)
          (Finset.mem_univ i)).symm
      simp only [row_normalise, eq_self_iff_true, if_true]
      rw [hsum, herase, abs_of_nonpos (hdiag_nonpos i)]
      linarith [hdiag i]
    · simp only [row_normalise, if_neg hij, sub_zero]
      exact abs_of_nonneg (hoff i j hij)
  have hS : (normalise_ctbn_params q).S = q.S := by
    show symmetrise (row_normalise (fun a b => |q.S a b|)) = q.S
    rw [hB]
    exact symmetrise_of_symm _ hsym
  have hJ : (normalise_ctbn_params q).J = q.J := by
    show symmetrise q.J = q.J
    exact symmetrise_of_symm _ (fun i j => symmetrise_symm p.J i j)
  exact CtbnParams.ext hS hJ rfl

/-- Witness for C5 at `params_const`. -/
theorem normalise_ctbn_params_idem_witness :
    (∀ i j, |params_const.S i j| = |params_const.S j i|) ∧
    normalise_ctbn_params (normalise_ctbn_params params_const) =
      normalise_ctbn_params params_const :=
  ⟨fun _ _ => rfl, normalise_ctbn_params_idem _ (fun _ _ => rfl)⟩

/-- Counterexample to C5 as stated: on the raw `S = [[0,1],[0,0]]`,
normalising twice changes entry (0,0) of `S` from `-1` to `-1/2`. -/
theorem normalise_idem_counterexample :
    normalise_ctbn_params (normalise_ctbn_params params_asym) ≠
      normalise_ctbn_params params_asym := by
  intro hcontra
  have h00 := congrArg (fun q => q.S 0 0) hcontra
  simp only [normalise_ctbn_params, symmetrise, row_normalise, params_asym,
    Fin.sum_univ_two] at h00
  norm_num [abs_of_nonneg] at h00

/-! ### The mean-field averaged rate tensor `q_bar` -/

theorem smallest_float32_pos : 0 < smallest_float32 := by
  norm_num [smallest_float32]

/-- The safe-log `product` agrees with the true product as soon as every
factor is at least the clamp threshold. -/
theorem product_eq_prod {m : ℕ} (f : Fin m → ℝ)
    (hf : ∀ k, smallest_float32 ≤ f k) : product f = ∏ k, f k := by
  unfold product safe_log
  rw [Real.exp_sum]
  refine Finset.prod_congr rfl (fun k _ => ?_)
  rw [max_eq_left (hf k)]
  exact Real.exp_log (lt_of_lt_of_le smallest_float32_pos (hf k))

/-- C2 (amended): provided every neighbor factor `mu_exp_2JC` is at least the
`safe_log` clamp threshold (the smallest normal float32), entry (a,x,y) of
`q_bar` is `S[x,y]·exp(h[y])·∏_k (Σ_x' mu[nbr,x']·exp(2·J[y,x']))^mask` off
the diagonal and `0` on the diagonal. -/
theorem q_bar_formula {A K M N : ℕ} (idx : Fin A → Fin K)
    (nbr_idx : Fin K → Fin M → Fin K) (nbr_mask : Fin K → Fin M → ℕ)
    (params : CtbnParams N) (mu : Fin K → Fin N → ℝ)
    (hclamp : ∀ a k y, smallest_float32 ≤ mu_exp_2JC idx nbr_idx nbr_mask params mu a k y)
    (a : Fin A) (x y : Fin N) :
    q_bar idx nbr_idx nbr_mask params mu a x y =
      if x = y then 0
      else params.S x y * Real.exp (params.h y) *
        ∏ k, (∑ x', mu (nbr_idx (idx a) k) x' * Real.exp (2 * params.J y x')) ^
          nbr_mask (idx a) k := by
  unfold q_bar offdiag_mask
  rw [product_eq_prod _ (fun k => hclamp a k y)]
  by_cases hxy : x = y
  · simp [hxy]
  · simp only [if_neg hxy, mu_exp_2JC]
    ring

/-- Witness for C2: with all neighbor slots masked out every `mu_exp_2JC`
factor is `1`, which is above the clamp threshold. -/
theorem q_bar_formula_witness :
    (∀ a k y, smallest_float32 ≤
      mu_exp_2JC idx1 nbr_idx1 mask0 params_const mu_one a k y) ∧
    q_bar idx1 nbr_idx1 mask0 params_const mu_one 0 0 1 =
      if (0 : Fin 2) = 1 then 0
      else params_const.S 0 1 * Real.exp (params_const.h 1) *
        ∏ k, (∑ x', mu_one (nbr_idx1 (idx1 0) k) x' *
          Real.exp (2 * params_const.J 1 x')) ^ mask0 (idx1 0) k := by
  have hc : ∀ a k y, smallest_float32 ≤
      mu_exp_2JC idx1 nbr_idx1 mask0 params_const mu_one a k y := by
    intro a k y
    simp only [mu_exp_2JC, mask0, pow_zero]
    norm_num [smallest_float32]
  exact ⟨hc, q_bar_formula _ _ _ _ _ hc 0 0 1⟩

/-- The helper inequality for the C2 counterexample: `exp(-100)` lies below
the float32 clamp threshold `2^(-126)`. -/
theorem exp_neg_hundred_lt : Real.exp (-100) < smallest_float32 := by
  have h1 : Real.exp 100 = Real.exp 1 ^ (100 : ℕ) := by
    rw [← Real.exp_nat_mul]
    norm_num
  have h2 : (2.7 : ℝ) ^ (100 : ℕ) < Real.exp 1 ^ (100 : ℕ) := by
    have he : (2.7 : ℝ) < Real.exp 1 := by
      have := Real.exp_one_gt_d9
      norm_num at this ⊢
      linarith
    exact pow_lt_pow_left₀ he (by norm_num) (by norm_num)
  have h3 : (2 : ℝ) ^ (126 : ℕ) < (2.7 : ℝ) ^ (100 : ℕ) := by norm_num
  have h4 : (2 : ℝ) ^ (126 : ℕ) < Real.exp 100 := by
    rw [h1]
    exact lt_trans h3 h2
  rw [smallest_float32, lt_div_iff₀ (by positivity)]
  calc Real.exp (-100) * 2 ^ 126 < Real.exp (-100) * Real.exp 100 :=
        mul_lt_mul_of_pos_left h4 (Real.exp_pos _)
    _ = 1 := by
        rw [← Real.exp_add]
        norm_num

/-- Counterexample to C2 as stated: with `J ≡ -50` the neighbor factor is
`exp(-100)`, which `safe_log` clamps to `2^(-126)`, so the code returns
`2^(-126)` where the claimed formula gives `exp(-100)`. -/
theorem q_bar_counterexample :
    q_bar idx1 nbr_idx1 mask1 params_J50 mu_point 0 0 1 ≠
      params_J50.S 0 1 * Real.exp (params_J50.h 1) *
        ∏ k, (∑ x', mu_point (nbr_idx1 (idx1 0) k) x' *
          Real.exp (2 * params_J50.J 1 x')) ^ mask1 (idx1 0) k := by
  have hlt := exp_neg_hundred_lt
  simp only [q_bar, mu_exp_2JC, product, safe_log, offdiag_mask, params_J50,
    idx1, nbr_idx1, mask1, mu_point, Fin.sum_univ_two, Fin.sum_univ_one,
    Fin.prod_univ_one]
  norm_num
  intro hlog
  rw [max_eq_right (le_of_lt hlt)] at hlog
  have hc : smallest_float32 = Real.exp (-100) := by
    rw [← hlog, Real.exp_log smallest_float32_pos]
  exact absurd hc (ne_of_gt hlt)

/-! ### Padding noninterference of `F_deriv` -/

theorem mu_exp_2JC_point_congr {K M N : ℕ} (nbr_idx : Fin K → Fin M → Fin K)
    (nbr_mask : Fin K → Fin M → ℕ) (params : CtbnParams N)
    (mu mu' : Fin K → Fin N → ℝ) (i : Fin K)
    (hnbr : ∀ k, nbr_mask i k ≠ 0 → mu (nbr_idx i k) = mu' (nbr_idx i k))
    (k : Fin M) (y : Fin N) :
    mu_exp_2JC id nbr_idx nbr_mask params mu i k y =
      mu_exp_2JC id nbr_idx nbr_mask params mu' i k y := by
  by_cases hk : nbr_mask i k = 0
  · simp [mu_exp_2JC, hk]
  · simp only [mu_exp_2JC, id_eq]
    rw [hnbr k hk]

theorem q_bar_point_congr {K M N : ℕ} (nbr_idx : Fin K → Fin M → Fin K)
    (nbr_mask : Fin K → Fin M → ℕ) (params : CtbnParams N)
    (mu mu' : Fin K → Fin N → ℝ) (i : Fin K)
    (hnbr : ∀ k, nbr_mask i k ≠ 0 → mu (nbr_idx i k) = mu' (nbr_idx i k))
    (x y : Fin N) :
    q_bar id nbr_idx nbr_mask params mu i x y =
      q_bar id nbr_idx nbr_mask params mu' i x y := by
  simp only [q_bar, product]
  rw [Finset.sum_congr rfl (fun k _ => by
    rw [mu_exp_2JC_point_congr nbr_idx nbr_mask params mu mu' i hnbr k y])]

theorem q_tilde_point_congr {K M N : ℕ} (nbr_idx : Fin K → Fin M → Fin K)
    (nbr_mask : Fin K → Fin M → ℕ) (params : CtbnParams N)
    (mu mu' : Fin K → Fin N → ℝ) (i : Fin K)
    (hnbr : ∀ k, nbr_mask i k ≠ 0 → mu (nbr_idx i k) = mu' (nbr_idx i k))
    (x y : Fin N) :
    q_tilde id nbr_idx nbr_mask params mu i x y =
      q_tilde id nbr_idx nbr_mask params mu' i x y := by
  have hsum : (∑ k, ∑ x', mu (nbr_idx i k) x' * (nbr_mask i k : ℝ) * params.J y x')
      = ∑ k, ∑ x', mu' (nbr_idx i k) x' * (nbr_mask i k : ℝ) * params.J y x' := by
    refine Finset.sum_congr rfl (fun k _ => ?_)
    by_cases hk : nbr_mask i k = 0
    · simp [hk]
    · rw [hnbr k hk]
  simp only [q_tilde, id_eq]
  rw [hsum]

theorem gamma_point_congr {K M N : ℕ} (nbr_idx : Fin K → Fin M → Fin K)
    (nbr_mask : Fin K → Fin M → ℕ) (params : CtbnParams N)
    (mu mu' rho rho' : Fin K → Fin N → ℝ) (i : Fin K)
    (hnbr : ∀ k, nbr_mask i k ≠ 0 → mu (nbr_idx i k) = mu' (nbr_idx i k))
    (hmui : mu i = mu' i) (hrhoi : rho i = rho' i) (x y : Fin N) :
    gamma id nbr_idx nbr_mask params mu rho i x y =
      gamma id nbr_idx nbr_mask params mu' rho' i x y := by
  simp only [gamma, id_eq]
  rw [hmui, hrhoi, q_tilde_point_congr nbr_idx nbr_mask params mu mu' i hnbr x y]

theorem F_deriv_eq_sum_contrib {K M N : ℕ} (seq_mask : Fin K → ℕ)
    (nbr_idx : Fin K → Fin M → Fin K) (nbr_mask : Fin K → Fin M → ℕ)
    (params : CtbnParams N) (mu rho : Fin K → Fin N → ℝ)
    (hflag : ∀ i, seq_mask i = 0 ∨ seq_mask i = 1) :
    F_deriv seq_mask nbr_idx nbr_mask params mu rho =
      ∑ i ∈ Finset.univ.filter (fun i => seq_mask i = 1),
        F_deriv_contrib nbr_idx nbr_mask params mu rho i := by
  rw [Finset.sum_filter]
  unfold F_deriv
  rw [neg_add_eq_sub, ← Finset.sum_sub_distrib]
  refine Finset.sum_congr rfl (fun i _ => ?_)
  rcases hflag i with h0 | h1
  · simp [F_mask, h0]
  · rw [if_pos h1]
    unfold F_deriv_contrib
    rw [neg_add_eq_sub]
    congr 1
    · refine Finset.sum_congr rfl (fun x _ => Finset.sum_congr rfl (fun y _ => ?_))
      by_cases hxy : x = y
      · simp [F_mask, offdiag_mask, hxy]
      · have hFm : F_mask seq_mask i x y = 1 := by
          simp [F_mask, offdiag_mask, h1, hxy]
        have hod : offdiag_mask (N := N) x y = 1 := by simp [offdiag_mask, hxy]
        simp only [gamma_coeff, hFm, hod, mul_one]
    · refine Finset.sum_congr rfl (fun x _ => Finset.sum_congr rfl (fun y _ => ?_))
      by_cases hxy : x = y
      · simp [F_mask, offdiag_mask, hxy]
      · have hFm : F_mask seq_mask i x y = 1 := by
          simp [F_mask, offdiag_mask, h1, hxy]
        have hod : offdiag_mask (N := N) x y = 1 := by simp [offdiag_mask, hxy]
        rw [hFm, hod]

/-- C8: noninterference of padding.  With a 0/1 `seq_mask` and no real
component having a masked-in padded neighbor, (a) `F_deriv` equals the sum of
the per-component contributions of the real components alone (the padded
components contribute exactly zero), and (b) `F_deriv` returns equal values on
any two `(mu, rho)` inputs that agree on the rows of real components. -/
theorem F_deriv_padding {K M N : ℕ} (seq_mask : Fin K → ℕ)
    (nbr_idx : Fin K → Fin M → Fin K) (nbr_mask : Fin K → Fin M → ℕ)
    (params : CtbnParams N) (mu mu' rho rho' : Fin K → Fin N → ℝ)
    (hflag : ∀ i, seq_mask i = 0 ∨ seq_mask i = 1)
    (hclosed : ∀ i k, seq_mask i = 1 → nbr_mask i k ≠ 0 → seq_mask (nbr_idx i k) = 1)
    (hmu : ∀ i, seq_mask i = 1 → mu i = mu' i)
    (hrho : ∀ i, seq_mask i = 1 → rho i = rho' i) :
    (F_deriv seq_mask nbr_idx nbr_mask params mu rho =
      ∑ i ∈ Finset.univ.filter (fun i => seq_mask i = 1),
        F_deriv_contrib nbr_idx nbr_mask params mu rho i) ∧
    F_deriv seq_mask nbr_idx nbr_mask params mu rho =
      F_deriv seq_mask nbr_idx nbr_mask params mu' rho' := by
  have ha := F_deriv_eq_sum_contrib seq_mask nbr_idx nbr_mask params mu rho hflag
  have ha' := F_deriv_eq_sum_contrib seq_mask nbr_idx nbr_mask params mu' rho' hflag
  refine ⟨ha, ?_⟩
  rw [ha, ha']
  refine Finset.sum_congr rfl (fun i hi => ?_)
  have hi1 : seq_mask i = 1 := (Finset.mem_filter.mp hi).2
  have hnbr : ∀ k, nbr_mask i k ≠ 0 → mu (nbr_idx i k) = mu' (nbr_idx i k) :=
    fun k hk => hmu _ (hclosed i k hi1 hk)
  have hmui := hmu i hi1
  have hrhoi := hrho i hi1
  unfold F_deriv_contrib
  congr 1
  · congr 1
    refine Finset.sum_congr rfl (fun x _ => Finset.sum_congr rfl (fun y _ => ?_))
    rw [hmui, q_bar_point_congr nbr_idx nbr_mask params mu mu' i hnbr x y]
  · refine Finset.sum_congr rfl (fun x _ => Finset.sum_congr rfl (fun y _ => ?_))
    rw [hmui, gamma_point_congr nbr_idx nbr_mask params mu mu' rho rho' i hnbr hmui hrhoi x y,
      q_tilde_point_congr nbr_idx nbr_mask params mu mu' i hnbr x y]

/-- Witness for C8 at a concrete two-component instance whose second
component is padding and whose inputs differ exactly on the padded rows. -/
theorem F_deriv_padding_witness :
    (∀ i, seq_mask10 i = 0 ∨ seq_mask10 i = 1) ∧
    (∀ i k, seq_mask10 i = 1 → mask2_0 i k ≠ 0 → seq_mask10 (nbr_idx2 i k) = 1) ∧
    (∀ i, seq_mask10 i = 1 → muA i = muB i) ∧
    (∀ i, seq_mask10 i = 1 → rhoA i = rhoB i) ∧
    ((F_deriv seq_mask10 nbr_idx2 mask2_0 params_const muA rhoA =
      ∑ i ∈ Finset.univ.filter (fun i => seq_mask10 i = 1),
        F_deriv_contrib nbr_idx2 mask2_0 params_const muA rhoA i) ∧
    F_deriv seq_mask10 nbr_idx2 mask2_0 params_const muA rhoA =
      F_deriv seq_mask10 nbr_idx2 mask2_0 params_const muB rhoB) := by
  have hflag : ∀ i, seq_mask10 i = 0 ∨ seq_mask10 i = 1 := by decide
  have hclosed : ∀ i k, seq_mask10 i = 1 → mask2_0 i k ≠ 0 →
      seq_mask10 (nbr_idx2 i k) = 1 := fun i k _ hk => absurd rfl hk
  have hmu : ∀ i, seq_mask10 i = 1 → muA i = muB i := by
    intro i hi
    fin_cases i
    · funext x
      simp [muA, muB]
    · exfalso
      simp [seq_mask10] at hi
  have hrho : ∀ i, seq_mask10 i = 1 → rhoA i = rhoB i := by
    intro i hi
    fin_cases i
    · funext x
      simp [rhoA, rhoB]
    · exfalso
      simp [seq_mask10] at hi
  exact ⟨hflag, hclosed, hmu, hrho,
    F_deriv_padding seq_mask10 nbr_idx2 mask2_0 params_const muA muB rhoA rhoB
      hflag hclosed hmu hrho⟩

/-! ### The terminal-boundary guard of the ODE right-hand sides -/

/-- C6: whenever the right-hand sides `F_term`, `rho_term` and `mu_term` are
evaluated at a time `t` that is not strictly less than the horizon `T`, the
stacked `mu` matrix is replaced by the stacked `rho` matrix before the
derivative is computed (in `mu_term` this discards the dependent variable that
was written into row `i` of `mu`); at any time `s` strictly less than `T` the
evaluated `mu` is used unchanged. -/
theorem terminal_boundary_guard {K M N : ℕ} (i : Fin K) (seq_mask : Fin K → ℕ)
    (nbr_idx : Fin K → Fin M → Fin K) (nbr_mask : Fin K → Fin M → ℕ)
    (params : CtbnParams N) (mu_solns rho_solns : Fin K → ℝ → Fin N → ℝ)
    (T t s F_t : ℝ) (rho_i_t mu_i_t : Fin N → ℝ)
    (hT : ¬ t < T) (hs : s < T) :
    (F_term t F_t seq_mask nbr_idx nbr_mask params mu_solns rho_solns T =
      F_deriv seq_mask nbr_idx nbr_mask params (fun j => rho_solns j t)
        (fun j => rho_solns j t)) ∧
    (rho_term t rho_i_t i seq_mask nbr_idx nbr_mask params mu_solns rho_solns T =
      (rho_deriv i nbr_idx nbr_mask params (fun j => rho_solns j t)
        (Function.update (fun j => rho_solns j t) i rho_i_t)).map (fun d =>
          fun x => (seq_mask i : ℝ) * d x)) ∧
    (mu_term t mu_i_t i seq_mask nbr_idx nbr_mask params mu_solns rho_solns T =
      fun x => (seq_mask i : ℝ) * mu_deriv i nbr_idx nbr_mask params
        (fun j => rho_solns j t) (fun j => rho_solns j t) x) ∧
    (F_term s F_t seq_mask nbr_idx nbr_mask params mu_solns rho_solns T =
      F_deriv seq_mask nbr_idx nbr_mask params (fun j => mu_solns j s)
        (fun j => rho_solns j s)) ∧
    (rho_term s rho_i_t i seq_mask nbr_idx nbr_mask params mu_solns rho_solns T =
      (rho_deriv i nbr_idx nbr_mask params (fun j => mu_solns j s)
        (Function.update (fun j => rho_solns j s) i rho_i_t)).map (fun d =>
          fun x => (seq_mask i : ℝ) * d x)) ∧
    (mu_term s mu_i_t i seq_mask nbr_idx nbr_mask params mu_solns rho_solns T =
      fun x => (seq_mask i : ℝ) * mu_deriv i nbr_idx nbr_mask params
        (Function.update (fun j => mu_solns j s) i mu_i_t)
        (fun j => rho_solns j s) x) := by
  refine ⟨?_, ?_, ?_, ?_, ?_, ?_⟩
  · simp only [F_term, eval_mu_rho]
    rw [if_neg hT]
  · simp only [rho_term, eval_mu_rho]
    rw [if_neg hT]
  · simp only [mu_term, eval_mu_rho]
    rw [if_neg hT]
  · simp only [F_term, eval_mu_rho]
    rw [if_pos hs]
  · simp only [rho_term, eval_mu_rho]
    rw [if_pos hs]
  · simp only [mu_term, eval_mu_rho]
    rw [if_pos hs]

/-- Witness for C6 at `t = T = 1` and `s = 0`. -/
theorem terminal_boundary_guard_witness :
    ¬ (1 : ℝ) < 1 ∧ (0 : ℝ) < 1 ∧
    ((F_term 1 0 seq_mask1 nbr_idx1 mask1 params_const traj_one traj_two 1 =
      F_deriv seq_mask1 nbr_idx1 mask1 params_const (fun j => traj_two j 1)
        (fun j => traj_two j 1)) ∧
    (rho_term 1 vec_one 0 seq_mask1 nbr_idx1 mask1 params_const traj_one traj_two 1 =
      (rho_deriv 0 nbr_idx1 mask1 params_const (fun j => traj_two j 1)
        (Function.update (fun j => traj_two j 1) 0 vec_one)).map (fun d =>
          fun x => (seq_mask1 0 : ℝ) * d x)) ∧
    (mu_term 1 vec_one 0 seq_mask1 nbr_idx1 mask1 params_const traj_one traj_two 1 =
      fun x => (seq_mask1 0 : ℝ) * mu_deriv 0 nbr_idx1 mask1 params_const
        (fun j => traj_two j 1) (fun j => traj_two j 1) x) ∧
    (F_term 0 0 seq_mask1 nbr_idx1 mask1 params_const traj_one traj_two 1 =
      F_deriv seq_mask1 nbr_idx1 mask1 params_const (fun j => traj_one j 0)
        (fun j => traj_two j 0)) ∧
    (rho_term 0 vec_one 0 seq_mask1 nbr_idx1 mask1 params_const traj_one traj_two 1 =
      (rho_deriv 0 nbr_idx1 mask1 params_const (fun j => traj_one j 0)
        (Function.update (fun j => traj_two j 0) 0 vec_one)).map (fun d =>
          fun x => (seq_mask1 0 : ℝ) * d x)) ∧
    (mu_term 0 vec_one 0 seq_mask1 nbr_idx1 mask1 params_const traj_one traj_two 1 =
      fun x => (seq_mask1 0 : ℝ) * mu_deriv 0 nbr_idx1 mask1 params_const
        (Function.update (fun j => traj_one j 0) 0 vec_one)
        (fun j => traj_two j 0) x)) :=
  ⟨by norm_num, by norm_num,
    terminal_boundary_guard 0 seq_mask1 nbr_idx1 mask1 params_const traj_one
      traj_two 1 1 0 0 vec_one vec_one (by norm_num) (by norm_num)⟩

/-! ### The exact matrix-exponential posterior solvers -/

/-- C7: for a rate matrix `Q` (zero row sums, so that the constructor's
`row_normalise` leaves it unchanged), `ExactRho.evaluate(t)` is
`expm(Q·(T-t))[:,y]` clamped entrywise to at most 1, and `ExactMu.evaluate(t)`
is `expm(Q·t)[x,:] · ρ(t) / expm(Q·T)[x,y]` renormalised to sum to 1. -/
theorem exact_posterior_formulas {N : ℕ} (d : ExactRhoData N)
    (hQ : ∀ i, ∑ j, d.q i j = 0) :
    (∀ t s, ExactRho_evaluate d t s =
      min (expm (Matrix.of fun i j => d.q i j * (d.T - t)) s d.y) 1) ∧
    (∀ t, ExactMu_evaluate d t = fun s =>
      (expm (Matrix.of fun i j => d.q i j * t) d.x s *
          min (expm (Matrix.of fun i j => d.q i j * (d.T - t)) s d.y) 1 /
          expm (Matrix.of fun i j => d.q i j * d.T) d.x d.y) /
        ∑ s', expm (Matrix.of fun i j => d.q i j * t) d.x s' *
          min (expm (Matrix.of fun i j => d.q i j * (d.T - t)) s' d.y) 1 /
          expm (Matrix.of fun i j => d.q i j * d.T) d.x d.y) := by
  have h1 : row_normalise d.q = d.q := by
    funext i j
    simp only [row_normalise]
    by_cases hij : i = j
    · rw [if_pos hij, hQ i, sub_zero]
    · rw [if_neg hij, sub_zero]
  have hM : ∀ c : ℝ, (Matrix.of fun i j => ExactRho_normq d i j * c) =
      (Matrix.of fun i j => d.q i j * c) := by
    intro c
    refine congrArg Matrix.of (funext fun i => funext fun j => ?_)
    simp [ExactRho_normq, h1]
  have hrho : ∀ t s, ExactRho_evaluate d t s =
      min (expm (Matrix.of fun i j => d.q i j * (d.T - t)) s d.y) 1 := by
    intro t s
    simp only [ExactRho_evaluate]
    rw [hM]
  refine ⟨hrho, fun t => ?_⟩
  funext s
  simp only [ExactMu_evaluate, ExactRho_exp_qT]
  rw [hM t]
  simp only [hrho]

/-- Witness for C7 at the concrete generator `q_flip` with zero row sums. -/
theorem exact_posterior_formulas_witness :
    (∀ i, ∑ j, dex.q i j = 0) ∧
    ((∀ t s, ExactRho_evaluate dex t s =
      min (expm (Matrix.of fun i j => dex.q i j * (dex.T - t)) s dex.y) 1) ∧
    (∀ t, ExactMu_evaluate dex t = fun s =>
      (expm (Matrix.of fun i j => dex.q i j * t) dex.x s *
          min (expm (Matrix.of fun i j => dex.q i j * (dex.T - t)) s dex.y) 1 /
          expm (Matrix.of fun i j => dex.q i j * dex.T) dex.x dex.y) /
        ∑ s', expm (Matrix.of fun i j => dex.q i j * t) dex.x s' *
          min (expm (Matrix.of fun i j => dex.q i j * (dex.T - t)) s' dex.y) 1 /
          expm (Matrix.of fun i j => dex.q i j * dex.T) dex.x dex.y)) := by
  have hQ : ∀ i, ∑ j, dex.q i j = 0 := by
    intro i
    fin_cases i <;> simp [dex, q_flip, Fin.sum_univ_two]
  exact ⟨hQ, exact_posterior_formulas dex hQ⟩

/-! ### Fail-fast validation in `get_Markov_blankets` -/

/-- C9: `get_Markov_blankets` fails with a descriptive error — and returns no
padded neighborhood tuple — whenever the contact matrix is not square, a
supplied `xs` or `ys` has the wrong length, or an explicitly supplied `M` is
smaller than the maximum neighbor count. -/
theorem get_Markov_blankets_fail_fast (r c : ℕ) (C : ℕ → ℕ → ℕ)
    (xs ys : Option (List ℕ)) (Kopt Mopt : Option ℕ)
    (hviol : c ≠ r ∨ (∃ l, xs = some l ∧ l.length ≠ r) ∨
      (∃ l, ys = some l ∧ l.length ≠ r) ∨
      (∃ M, Mopt = some M ∧ M < max_nbrs r c C)) :
    (∃ msg, get_Markov_blankets r c C xs ys Kopt Mopt = .error msg) ∧
    (∀ tup, get_Markov_blankets r c C xs ys Kopt Mopt ≠ .ok tup) := by
  have herr : ∃ msg, get_Markov_blankets r c C xs ys Kopt Mopt = .error msg := by
    by_cases hc : c = r
    · by_cases hxs : optLenBad xs r = true
      · refine ⟨"length of xs must equal size of C", ?_⟩
        simp only [get_Markov_blankets]
        rw [if_neg (not_not_intro hc), if_pos hxs]
      · by_cases hys : optLenBad ys r = true
        · refine ⟨"length of ys must equal size of C", ?_⟩
          simp only [get_Markov_blankets]
          rw [if_neg (not_not_intro hc), if_neg hxs, if_pos hys]
        · -- all length checks pass, so the violation must be the M check
          rcases hviol with h | ⟨l, hl, hlen⟩ | ⟨l, hl, hlen⟩ | ⟨M, hM, hlt⟩
          · exact absurd hc h
          · exact absurd (by simp [optLenBad, hl, hlen]) hxs
          · exact absurd (by simp [optLenBad, hl, hlen]) hys
          · refine ⟨"M must be at least as large as the largest number of neighbors", ?_⟩
            simp only [get_Markov_blankets, hM]
            rw [if_neg (not_not_intro hc), if_neg hxs, if_neg hys, if_pos hlt]
    · refine ⟨"C must be a square matrix", ?_⟩
      simp only [get_Markov_blankets]
      rw [if_pos hc]
  refine ⟨herr, fun tup htup => ?_⟩
  obtain ⟨msg, hmsg⟩ := herr
  rw [hmsg] at htup
  exact Except.noConfusion htup

/-- Witness for C9 at the non-square contact matrix of shape `(1, 2)`. -/
theorem get_Markov_blankets_fail_fast_witness :
    ((2 : ℕ) ≠ 1 ∨ (∃ l, (none : Option (List ℕ)) = some l ∧ l.length ≠ 1) ∨
      (∃ l, (none : Option (List ℕ)) = some l ∧ l.length ≠ 1) ∨
      (∃ M, (none : Option ℕ) = some M ∧ M < max_nbrs 1 2 (fun _ _ => 0))) ∧
    ((∃ msg, get_Markov_blankets 1 2 (fun _ _ => 0) none none none none =
      .error msg) ∧
    (∀ tup, get_Markov_blankets 1 2 (fun _ _ => 0) none none none none ≠
      .ok tup)) :=
  ⟨Or.inl (by decide),
    get_Markov_blankets_fail_fast 1 2 (fun _ _ => 0) none none none none
      (Or.inl (by decide))⟩

/-! ### The coordinate-ascent sweep structure -/

theorem replace_nth_eq_set {α : Type*} (l : List α) (n : ℕ) (v : α) :
    replace_nth l n v = l.set n v := by
  apply List.ext_getElem
  · simp [replace_nth]
  · intro m h1 h2
    simp only [replace_nth, List.getElem_map, List.getElem_enum,
      List.getElem_set]
    by_cases hmn : m = n
    · subst hmn
      simp
    · rw [if_neg hmn, if_neg (Ne.symm hmn)]

theorem foldl_eq_sweepSpec {Traj : Type*}
    (solveRho solveMu : ℕ → List Traj → List Traj → Traj) :
    ∀ (order : List ℕ) (st : List Traj × List Traj),
      order.foldl (loop_body_fun solveRho solveMu) st =
        sweepSpec solveRho solveMu order st := by
  intro order
  induction order with
  | nil => intro st; rfl
  | cons i rest ih =>
    intro st
    rw [List.foldl_cons, ih]
    show sweepSpec solveRho solveMu rest (loop_body_fun solveRho solveMu st i) = _
    simp only [loop_body_fun, replace_nth_eq_set, sweepSpec]

theorem update_fun_eq_sweepSpec {Traj : Type*} (perm : List ℕ)
    (solveRho solveMu : ℕ → List Traj → List Traj → Traj)
    (st : List Traj × List Traj) (last_i : ℤ) :
    update_fun perm solveRho solveMu (st, last_i) =
      (sweepSpec solveRho solveMu
        (if last_i = (perm.headI : ℤ) then perm.reverse else perm) st,
       ((if last_i = (perm.headI : ℤ) then perm.reverse else perm).getLastI : ℤ)) := by
  simp only [update_fun, foldl_eq_sweepSpec]

/-- C3: one sweep of `ctbn_variational_log_cond`.  For a drawn permutation of
`[0,K)`: the permutation is reversed exactly when its first element equals the
last updated index; the sweep then performs, strictly sequentially over the
resulting order, the replace-ρ-then-replace-μ updates in which each re-solve
sees all earlier replacements of the same sweep (`sweepSpec`); the order's
last element becomes the new last-updated index; and the effective order is
still a permutation of `[0,K)`. -/
theorem update_fun_sweep {Traj : Type*} (perm : List ℕ)
    (solveRho solveMu : ℕ → List Traj → List Traj → Traj)
    (st : List Traj × List Traj) (last_i : ℤ) (K : ℕ)
    (hperm : perm.Perm (List.range K)) :
    update_fun perm solveRho solveMu (st, last_i) =
      (sweepSpec solveRho solveMu
        (if last_i = (perm.headI : ℤ) then perm.reverse else perm) st,
       ((if last_i = (perm.headI : ℤ) then perm.reverse else perm).getLastI : ℤ)) ∧
    (if last_i = (perm.headI : ℤ) then perm.reverse else perm).Perm
      (List.range K) := by
  refine ⟨update_fun_eq_sweepSpec perm solveRho solveMu st last_i, ?_⟩
  by_cases h : last_i = (perm.headI : ℤ)
  · rw [if_pos h]
    exact (List.reverse_perm perm).trans hperm
  · rw [if_neg h]
    exact hperm

/-- Witness for C3 at `K = 2`, `perm = [0,1]`, `last_i = 0` (which triggers
the reversal). -/
theorem update_fun_sweep_witness :
    ([0, 1] : List ℕ).Perm (List.range 2) ∧
    (update_fun [0, 1] solveRhoEx solveMuEx (([5, 6], [7, 8]), 0) =
      (sweepSpec solveRhoEx solveMuEx
        (if (0 : ℤ) = (([0, 1] : List ℕ).headI : ℤ) then ([0, 1] : List ℕ).reverse
         else [0, 1]) ([5, 6], [7, 8]),
       (((if (0 : ℤ) = (([0, 1] : List ℕ).headI : ℤ) then
           ([0, 1] : List ℕ).reverse else [0, 1]).getLastI : ℤ))) ∧
    (if (0 : ℤ) = (([0, 1] : List ℕ).headI : ℤ) then ([0, 1] : List ℕ).reverse
     else [0, 1]).Perm (List.range 2)) :=
  ⟨by decide,
    update_fun_sweep [0, 1] solveRhoEx solveMuEx ([5, 6], [7, 8]) 0 2 (by decide)⟩

/-- C10: the PRNG key is fixed across sweeps, so every sweep draws the same
permutation `perm`; sweep `n` of the loop applies `sweepSpec` to the effective
order `sweep_order n`, which is always either that one fixed permutation or
its exact reversal (chosen by the anti-repetition rule), never a fresh
independent order. -/
theorem sweep_order_fixed {Traj : Type*} (perm : List ℕ)
    (solveRho solveMu : ℕ → List Traj → List Traj → Traj)
    (init : (List Traj × List Traj) × ℤ) (n : ℕ) :
    ((update_fun perm solveRho solveMu)^[n + 1] init =
      (sweepSpec solveRho solveMu (sweep_order perm solveRho solveMu init n)
        ((update_fun perm solveRho solveMu)^[n] init).1,
       ((sweep_order perm solveRho solveMu init n).getLastI : ℤ))) ∧
    (sweep_order perm solveRho solveMu init n = perm ∨
      sweep_order perm solveRho solveMu init n = perm.reverse) := by
  constructor
  · rw [Function.iterate_succ_apply']
    have hpair : (update_fun perm solveRho solveMu)^[n] init =
        (((update_fun perm solveRho solveMu)^[n] init).1,
         ((update_fun perm solveRho solveMu)^[n] init).2) := rfl
    rw [hpair, update_fun_eq_sweepSpec]
    unfold sweep_order
    by_cases h : ((update_fun perm solveRho solveMu)^[n] init).2 = (perm.headI : ℤ)
    · rw [if_pos h]
    · rw [if_neg h]
  · unfold sweep_order
    by_cases h : ((update_fun perm solveRho solveMu)^[n] init).2 = (perm.headI : ℤ)
    · rw [if_pos h]
      exact Or.inr rfl
    · rw [if_neg h]
      exact Or.inl rfl

/-! ### The bounded coordinate-ascent loop -/

theorem boundedOptimizeGo_spec {σ : Type*} (score : σ → ℝ) (upd : σ → σ)
    (min_inc : ℝ) :
    ∀ (m : ℕ) (s : σ), 0 < m →
    ∃ k, 1 ≤ k ∧ k ≤ m ∧
      boundedOptimizeGo score upd min_inc m s (score s) =
        (score (upd^[k] s), upd^[k] s, k) ∧
      (∀ j, 1 ≤ j → j < k →
        min_inc <
          (score (upd^[j] s) - score (upd^[j - 1] s)) / score (upd^[j - 1] s)) ∧
      (k < m →
        (score (upd^[k] s) - score (upd^[k - 1] s)) / score (upd^[k - 1] s) ≤
          min_inc) := by
  intro m
  induction m with
  | zero => intro s h; omega
  | succ n ih =>
    intro s _
    by_cases hstop : (score (upd s) - score s) / score s ≤ min_inc
    · refine ⟨1, le_refl 1, by omega, ?_, ?_, ?_⟩
      · simp only [boundedOptimizeGo]
        rw [if_pos hstop]
        simp
      · intro j h1 h2
        omega
      · intro _
        simpa using hstop
    · have hiter : ∀ j : ℕ, upd^[j] (upd s) = upd^[j + 1] s := fun j =>
        (Function.iterate_succ_apply upd j s).symm
      by_cases hn : 0 < n
      · obtain ⟨k, hk1, hkn, heq, hmid, hlast⟩ := ih (upd s) hn
        refine ⟨k + 1, by omega, by omega, ?_, ?_, ?_⟩
        · simp only [boundedOptimizeGo]
          rw [if_neg hstop, heq, hiter k]
        · intro j hj1 hjk
          rcases Nat.lt_or_ge j 2 with hj2 | hj2
          · have hj : j = 1 := by omega
            subst hj
            simpa using not_le.mp hstop
          · obtain ⟨jj, rfl⟩ : ∃ jj, j = jj + 1 := ⟨j - 1, by omega⟩
            have := hmid jj (by omega) (by omega)
            obtain ⟨jjj, rfl⟩ : ∃ jjj, jj = jjj + 1 := ⟨jj - 1, by omega⟩
            rw [hiter, Nat.add_sub_cancel] at this
            rw [Nat.add_sub_cancel]
            rw [hiter jjj] at this
            exact this
        · intro hklt
          have := hlast (by omega)
          obtain ⟨kk, rfl⟩ : ∃ kk, k = kk + 1 := ⟨k - 1, by omega⟩
          rw [hiter, Nat.add_sub_cancel] at this
          rw [Nat.add_sub_cancel]
          rw [hiter kk] at this
          exact this
      · have hn0 : n = 0 := by omega
        subst hn0
        refine ⟨1, le_refl 1, le_refl 1, ?_, ?_, ?_⟩
        · simp only [boundedOptimizeGo]
          rw [if_neg hstop]
          simp
        · intro j h1 h2
          omega
        · intro h
          omega

/-- C1: for a positive update budget, the coordinate-ascent loop of
`ctbn_variational_log_cond` performs some number `k` of sweeps with
`1 ≤ k ≤ max_updates`; every sweep before the last strictly exceeded the
minimum relative increase (so the loop never stopped without reason), a stop
before the budget ran out means the relative increase of the final sweep was
at most `min_inc`, and the call returns the bound computed after sweep `k`
together with the final `mu`/`rho` solution arrays.  (`bounded_optimize` is
modelled from the spec: its module is not part of this snapshot.) -/
theorem ctbn_variational_log_cond_budget {Traj : Type*} (perm : List ℕ)
    (solveF : List Traj → List Traj → ℝ)
    (solveRho solveMu : ℕ → List Traj → List Traj → Traj)
    (mu_solns rho_solns : List Traj) (min_inc : ℝ) (max_updates : ℕ)
    (hpos : 0 < max_updates) :
    ∃ k, 1 ≤ k ∧ k ≤ max_updates ∧
      ctbn_variational_log_cond perm solveF solveRho solveMu mu_solns rho_solns
          min_inc max_updates =
        (score_fun solveF
          ((update_fun perm solveRho solveMu)^[k] ((mu_solns, rho_solns), -1)),
         ((update_fun perm solveRho solveMu)^[k] ((mu_solns, rho_solns), -1)).1) ∧
      (∀ j, 1 ≤ j → j < k →
        min_inc <
          (score_fun solveF
              ((update_fun perm solveRho solveMu)^[j] ((mu_solns, rho_solns), -1)) -
            score_fun solveF ((update_fun perm solveRho solveMu)^[j - 1]
              ((mu_solns, rho_solns), -1))) /
          score_fun solveF ((update_fun perm solveRho solveMu)^[j - 1]
            ((mu_solns, rho_solns), -1))) ∧
      (k < max_updates →
        (score_fun solveF
            ((update_fun perm solveRho solveMu)^[k] ((mu_solns, rho_solns), -1)) -
          score_fun solveF ((update_fun perm solveRho solveMu)^[k - 1]
            ((mu_solns, rho_solns), -1))) /
          score_fun solveF ((update_fun perm solveRho solveMu)^[k - 1]
            ((mu_solns, rho_solns), -1)) ≤ min_inc) := by
  obtain ⟨k, hk1, hkm, heq, hmid, hlast⟩ :=
    boundedOptimizeGo_spec (score_fun solveF) (update_fun perm solveRho solveMu)
      min_inc max_updates ((mu_solns, rho_solns), -1) hpos
  refine ⟨k, hk1, hkm, ?_, hmid, hlast⟩
  unfold ctbn_variational_log_cond bounded_optimize
  rw [heq]

/-- Witness for C1 with budget 1 on a concrete one-component instance. -/
theorem ctbn_variational_log_cond_budget_witness :
    0 < 1 ∧
    ∃ k, 1 ≤ k ∧ k ≤ 1 ∧
      ctbn_variational_log_cond [0] solveFEx solveRhoEx solveMuEx [5] [7]
          (1 / 1000) 1 =
        (score_fun solveFEx
          ((update_fun [0] solveRhoEx solveMuEx)^[k] (([5], [7]), -1)),
         ((update_fun [0] solveRhoEx solveMuEx)^[k] (([5], [7]), -1)).1) ∧
      (∀ j, 1 ≤ j → j < k →
        (1 : ℝ) / 1000 <
          (score_fun solveFEx
              ((update_fun [0] solveRhoEx solveMuEx)^[j] (([5], [7]), -1)) -
            score_fun solveFEx ((update_fun [0] solveRhoEx solveMuEx)^[j - 1]
              (([5], [7]), -1))) /
          score_fun solveFEx ((update_fun [0] solveRhoEx solveMuEx)^[j - 1]
            (([5], [7]), -1))) ∧
      (k < 1 →
        (score_fun solveFEx
            ((update_fun [0] solveRhoEx solveMuEx)^[k] (([5], [7]), -1)) -
          score_fun solveFEx ((update_fun [0] solveRhoEx solveMuEx)^[k - 1]
            (([5], [7]), -1))) /
          score_fun solveFEx ((update_fun [0] solveRhoEx solveMuEx)^[k - 1]
            (([5], [7]), -1)) ≤ 1 / 1000) :=
  ⟨Nat.one_pos,
    ctbn_variational_log_cond_budget [0] solveFEx solveRhoEx solveMuEx [5] [7]
      (1 / 1000) 1 Nat.one_pos⟩

end
